import Mathlib

set_option maxRecDepth 80000

/-!
# Verification of the kittenx text-to-speech pipeline

A shallow embedding, in Lean 4, of the pure computational core of the
`kittenx` repository (a Rust TTS front-end for the kitten-tts-nano model):

* `src/tts/text_cleaner.rs` — the symbol table (`SYMBOL_TO_ID`) and the
  `TextCleaner::clean` phoneme-to-id filter;
* `src/tts/kitten.rs` — the `KittenTTS::generate` facade (voice check,
  token padding, the fixed 5000/10000-sample trim);
* `src/utils/audio.rs` — `save_wav_16bit` sample conversion, `rms_frames`,
  `trim_silence` and `apply_fade_in_out`.

Modelling conventions.  Rust machine integers (`usize`, `i64`, `i16`)
become `Nat`/`Int`.  `f32`/`f64` samples and parameters become `ℚ` with
exact arithmetic; `as usize` on a float is floor clamped below by zero
(Rust saturating float-to-int casts truncate toward zero), `.ceil()` is
the rational ceiling, and `as i16` is truncation toward zero with
saturation.  The one float operation with no rational counterpart, the
square root inside `rms_frames` (and the `10f32.powf` threshold factor in
`trim_silence`), is passed in as an explicit function argument `sq`
(resp. `pw`); the theorems below either hold for every such function or
assume only facts true of the real `f32` functions (such as `sqrt 0 = 0`).
External collaborators (the espeak G2P backend, the whatlang detector, the
ONNX inference session, the voice archive) are out of scope per the spec
and are passed to the `generate` embedding as function arguments.
-/

/-- Source line `let pad = "$";` from `text_cleaner.rs`. -/
def pad : String := "$"

/-- Source line `let punctuation = ";:,.!?¡¿—…\"«»\"\" ";` from `text_cleaner.rs`.
Sixteen characters; the ASCII straight double quote U+0022 occurs at
(0-based) positions 10, 13 and 14, and the ASCII space is last.  The
source escapes `\"` three times: there are no curly quote code points. -/
def punctuation : String := ";:,.!?¡¿—…\"«»\"\" "

/-- Source line `let letters = "ABC…xyz";` from `text_cleaner.rs`. -/
def letters : String := "ABCDEFGHIJKLMNOPQRSTUVWXYZabcdefghijklmnopqrstuvwxyz"

/-- The ASCII apostrophe U+0027 (written via its code point). -/
def apos : Char := Char.ofNat 39

/-- Source line `let letters_ipa = "ɑɐ…";` from `text_cleaner.rs`: 109 code points.
The final four are U+0027, the combining vertical line below U+0329,
U+0027 again, and ᵻ (U+1D7B); they are appended as explicit code points
here (the apostrophe twice — the only duplicated char besides U+0022). -/
def lettersIpa : List Char :=
  "ɑɐɒæɓʙβɔɕçɗɖðʤəɘɚɛɜɝɞɟʄɡɠɢʛɦɧħɥʜɨɪʝɭɬɫɮʟɱɯɰŋɳɲɴøɵɸθœɶʘɹɺɾɻʀʁɽʂʃʈʧʉʊʋⱱʌɣɤʍχʎʏʑʐʒʔʡʕʢǀǁǂǃˈˌːˑʼʴʰʱʲʷˠˤ˞↓↑→↗↘".data
    ++ [apos, Char.ofNat 0x329, apos, Char.ofNat 0x1D7B]

/-- The ordered symbol inventory built in the `lazy_static` block of
`text_cleaner.rs`: the pad char, then `punctuation.chars()`, then
`letters.chars()`, then `letters_ipa.chars()`. -/
def symbols : List Char := pad.data ++ punctuation.data ++ letters.data ++ lettersIpa

/-- Model of `HashMap::insert` on an association list: replace the value of an
existing key in place, else append the new binding at the end. -/
def insertMap : List (Char × ℤ) → Char → ℤ → List (Char × ℤ)
  | [], k, v => [(k, v)]
  | (k0, v0) :: rest, k, v =>
      if k0 = k then (k0, v) :: rest else (k0, v0) :: insertMap rest k v

/-- The `SYMBOL_TO_ID` map of `text_cleaner.rs`:
`for (i, symbol) in symbols.iter().enumerate() { map.insert(*symbol, i as i64); }`.
A later insert of the same char overwrites the earlier index. -/
def symbolMap : List (Char × ℤ) :=
  symbols.enum.foldl (fun m p => insertMap m p.2 (Int.ofNat p.1)) []

/-- Lookup `SYMBOL_TO_ID.get(&ch)`: the id of a char, if present. -/
def symbolToId (c : Char) : Option ℤ :=
  (symbolMap.find? (fun p => p.1 = c)).map Prod.snd

/-- Embedding of `TextCleaner::clean` from `text_cleaner.rs`: walk the scalar values of
the input in order, push the id of each char found in `SYMBOL_TO_ID`,
silently skip the rest. -/
def clean (text : String) : List ℤ :=
  text.data.foldl
    (fun tokens ch =>
      match symbolToId ch with
      | some tokenId => tokens.concat tokenId
      | none => tokens)
    []

/-- Index (counting from `n`) of the last occurrence of `c` in `l`, as the
spec-level description of what the overwriting `HashMap::insert` loop
leaves behind for each char. -/
def lastIdxFrom : List Char → ℕ → Char → Option ℤ
  | [], _, _ => none
  | a :: rest, n, c =>
      match lastIdxFrom rest (n + 1) c with
      | some v => some v
      | none => if a = c then some (Int.ofNat n) else none

/-- The eight canonical voice names of `KittenTTS::with_provider`. -/
def availableVoices : List String :=
  ["expr-voice-2-m", "expr-voice-2-f", "expr-voice-3-m", "expr-voice-3-f",
   "expr-voice-4-m", "expr-voice-4-f", "expr-voice-5-m", "expr-voice-5-f"]

/-- Padding `tokens.insert(0, 0); tokens.push(0);` applied to the cleaner output in
`KittenTTS::generate`. -/
def generateTokens (phonemes : String) : List ℤ :=
  ((clean phonemes).insertIdx 0 0).concat 0

/-- The fixed-sample trim at the end of `KittenTTS::generate`:
`start_trim = 5000.min(len)`, `end_trim = 10000.min(len - start_trim)`,
and the slice `audio_data[start_trim .. len - end_trim]` is taken only
when `len > start_trim + end_trim`. -/
def fixedTrim (audioData : List ℚ) : List ℚ :=
  let startTrim := min 5000 audioData.length
  let endTrim := min 10000 (audioData.length - startTrim)
  if audioData.length > startTrim + endTrim then
    (audioData.drop startTrim).take (audioData.length - endTrim - startTrim)
  else audioData

/-- Errors actually raised by `KittenTTS::generate` (via `anyhow::bail!`
and `ok_or_else`): an unrecognized voice name, or a voice missing from the
loaded embedding map.  The facade constructs no other error of its own. -/
inductive GenError
  | unknownVoice
  | voiceNotFound
deriving DecidableEq

/-- Embedding of `KittenTTS::generate` from `kitten.rs`.  The external collaborators —
the ONNX inference session, the whatlang+espeak phonemization stage and
the loaded voice-embedding map — are function arguments (`inf`,
`phonemize`, `voiceMap`); the facade itself only (1) rejects voices
outside `availableVoices`, (2) cleans the phoneme string and pads it with
the id 0 on both sides, (3) looks up the voice embedding, (4) runs
inference, and (5) applies `fixedTrim`.  There is no check on `text` or
`speed`. -/
def generate (inf : List (List ℤ) → List ℚ → ℚ → List ℚ)
    (phonemize : String → String) (voiceMap : String → Option (List ℚ))
    (text voice : String) (speed : ℚ) : Except GenError (List ℚ) :=
  if availableVoices.contains voice then
    match voiceMap voice with
    | some voiceEmbedding =>
        Except.ok (fixedTrim (inf [generateTokens (phonemize text)] voiceEmbedding speed))
    | none => Except.error GenError.voiceNotFound
  else Except.error GenError.unknownVoice

/-- An executable floor on `ℚ` (Euclidean division of numerator by
denominator; equal to `⌊q⌋`, see `ratFloor_eq`).  Mathlib's `⌊·⌋` is
irreducible, so concrete runs below use this form. -/
def ratFloor (q : ℚ) : ℤ := q.num / q.den

/-- An executable ceiling on `ℚ` (equal to `⌈q⌉`, see `ratCeil_eq`). -/
def ratCeil (q : ℚ) : ℤ := -ratFloor (-q)

/-- Rust `as usize` on a (finite) float value: truncation toward zero,
saturating at 0 for negative inputs; the values converted here are all
nonnegative, where this is the floor. -/
def ratToUsize (q : ℚ) : ℕ := (ratFloor q).toNat

/-- Model of `.ceil() as usize` on a (finite, nonnegative) float value. -/
def ratCeilToUsize (q : ℚ) : ℕ := (ratCeil q).toNat

/-- Model of `f32::clamp(self, -1.0, 1.0)` from `save_wav`/`save_wav_16bit`. -/
def clampF (x : ℚ) : ℚ := if x < -1 then -1 else if x > 1 then 1 else x

/-- Truncation toward zero, the rounding used by Rust `as` float-to-int
casts. -/
def truncQ (q : ℚ) : ℤ := if 0 ≤ q then ratFloor q else ratCeil q

/-- The per-sample conversion of `save_wav_16bit` in `audio.rs`:
`(sample.clamp(-1.0, 1.0) * 32767.0) as i16`.  The `as i16` cast
truncates toward zero and saturates to the `i16` range. -/
def wav16Sample (x : ℚ) : ℤ :=
  max (-32768) (min 32767 (truncQ (clampF x * 32767)))

/-- The sequence of integer samples written by `save_wav_16bit` (the WAV
container itself is I/O and out of scope). -/
def saveWav16Samples (audio : List ℚ) : List ℤ := audio.map wav16Sample

/-- The per-frame value of `rms_frames`: mean of squares (exactly, where
the source accumulates in `f64`), guarded by the source's emptiness
check.  The square root is applied by the caller through `sq`. -/
def frameMean (frame : List ℚ) : ℚ :=
  if frame = [] then 0
  else (frame.foldl (fun s x => s + x * x) 0) / (frame.length : ℚ)

/-- The `while start < audio.len()` loop of `rms_frames`.  `fuel` bounds
the iteration count; since `trim_silence` always passes `hop_len ≥ 1`
(it applies `.max(1.0)`), a fuel of `audio.length` is never exhausted on
any reachable call. -/
def rmsGo (sq : ℚ → ℚ) (audio : List ℚ) (frameLen hopLen : ℕ) :
    ℕ → ℕ → List ℚ
  | 0, _ => []
  | fuel + 1, start =>
      if start < audio.length then
        sq (frameMean ((audio.drop start).take frameLen)) ::
          (if audio.length ≤ start + hopLen then []
           else rmsGo sq audio frameLen hopLen fuel (start + hopLen))
      else []

/-- Embedding of `rms_frames` from `audio.rs`, with the square root abstracted as
`sq`. -/
def rmsFrames (sq : ℚ → ℚ) (audio : List ℚ) (frameLen hopLen : ℕ) : List ℚ :=
  if audio = [] ∨ frameLen = 0 then []
  else rmsGo sq audio frameLen hopLen audio.length 0

/-- The fold `env.iter().fold(&0.0f32, |a, b| if b > a { b } else { a })` from
`trim_silence`: the running maximum of the envelope, seeded with 0. -/
def envMax (env : List ℚ) : ℚ :=
  env.foldl (fun a b => if a < b then b else a) 0

/-- The forward scan of `trim_silence` (first index from which two
consecutive frames reach the threshold, minus one); 0 when no such run
exists. -/
def scanStartGo (threshold : ℚ) : List ℚ → ℕ → ℕ → ℕ
  | [], _, _ => 0
  | e :: rest, i, run =>
      let run2 := if e ≥ threshold then run + 1 else 0
      if run2 ≥ 2 then i - 1 else scanStartGo threshold rest (i + 1) run2

/-- Entry point of the forward scan. -/
def scanStart (env : List ℚ) (threshold : ℚ) : ℕ := scanStartGo threshold env 0 0

/-- The backward scan of `trim_silence` over `(0..env.len()).rev()`;
`env.len() - 1` when no run of two voiced frames is found. -/
def scanEndGo (len : ℕ) (threshold : ℚ) : List (ℕ × ℚ) → ℕ → ℕ
  | [], _ => len - 1
  | (i, e) :: rest, run =>
      let run2 := if e ≥ threshold then run + 1 else 0
      if run2 ≥ 2 then min (i + 1) (len - 1) else scanEndGo len threshold rest run2

/-- Entry point of the backward scan. -/
def scanEnd (env : List ℚ) (threshold : ℚ) : ℕ :=
  scanEndGo env.length threshold env.enum.reverse 0

/-- Sample-index bookkeeping of `trim_silence`: frame-to-sample
conversion, the head/tail minimum-silence gates, the end padding and the
fixed 5 ms start padding, in source order.  Returns
`(start_sample, end_sample)`. -/
def trimBounds (env : List ℚ) (threshold : ℚ) (audioLen hopLen
    minSilenceFrames padSamples startPad : ℕ) : ℕ × ℕ :=
  let startFrame := scanStart env threshold
  let endFrame := scanEnd env threshold
  let startSample0 := startFrame * hopLen
  let endSample0 := min ((endFrame + 1) * hopLen) audioLen
  let startSample1 := if startSample0 / hopLen < minSilenceFrames then 0 else startSample0
  let endSample1 :=
    if (audioLen - endSample0) / hopLen < minSilenceFrames then audioLen else endSample0
  (startSample1 - startPad, min (endSample1 + padSamples) audioLen)

/-- Embedding of `apply_fade_in_out` from `audio.rs`, written functionally: the first
`mapIdx` is the fade-in loop (`audio[i] *= i / fade_in_samples` for
`i < fade_in_samples.min(n)`), the second is the fade-out loop
(`audio[n-1-i] *= 1.0 - i / fade_out_samples` for
`i < fade_out_samples.min(n)`, i.e. the indices `j ≥ n - min fo n`, with
`i = n - 1 - j`). -/
def applyFadeInOut (audio : List ℚ) (sampleRate : ℕ)
    (fadeInMs fadeOutMs : ℚ) : List ℚ :=
  if audio = [] then audio else
  let fadeInSamples := ratToUsize (max (fadeInMs / 1000 * (sampleRate : ℚ)) 0)
  let fadeOutSamples := ratToUsize (max (fadeOutMs / 1000 * (sampleRate : ℚ)) 0)
  let n := audio.length
  let fadedIn := audio.mapIdx (fun i x =>
    if i < min fadeInSamples n then x * ((i : ℚ) / (fadeInSamples : ℚ)) else x)
  fadedIn.mapIdx (fun j x =>
    if n - min fadeOutSamples n ≤ j
    then x * (1 - ((n - 1 - j : ℕ) : ℚ) / (fadeOutSamples : ℚ)) else x)

/-- Embedding of `trim_silence` from `audio.rs`: framing, RMS envelope (square root
`sq` abstracted), the `ref ≤ 0` early return, threshold
`ref · 10^(-top_db/20)` (the `powf` value abstracted as `pw`), the two
scans, the silence gates and paddings, and the final slice with fades.
All float arithmetic is exact rational arithmetic. -/
def trimSilence (sq pw : ℚ → ℚ) (audio : List ℚ) (sampleRate : ℕ)
    (topDb frameMs hopMs minSilenceMs endPaddingMs : ℚ) : List ℚ :=
  if audio = [] then [] else
  let sr : ℚ := (sampleRate : ℚ)
  let frameLen := ratToUsize (max (frameMs / 1000 * sr) 1)
  let hopLen := ratToUsize (max (hopMs / 1000 * sr) 1)
  let minSilenceFrames := ratCeilToUsize (minSilenceMs / 1000 * sr / (hopLen : ℚ))
  let env := rmsFrames sq audio frameLen hopLen
  if env = [] then audio else
  let refRms := envMax env
  if refRms ≤ 0 then audio else
  let threshold := refRms * pw (-topDb / 20)
  let b := trimBounds env threshold audio.length hopLen minSilenceFrames
    (ratToUsize (endPaddingMs / 1000 * sr)) (ratToUsize (5 / 1000 * sr))
  if b.2 ≤ b.1 then audio else
  applyFadeInOut ((audio.drop b.1).take (b.2 - b.1)) sampleRate 5 10

/-- An executable rational square root: exact on perfect-square
rationals (in particular `ratSqrt 0 = 0` and `ratSqrt 1 = 1`), which are
the only envelope values arising in the concrete runs below, so it agrees
with `f32::sqrt` there. -/
def ratSqrt (q : ℚ) : ℚ := (Nat.sqrt q.num.toNat : ℚ) / (Nat.sqrt q.den : ℚ)

/-- A rational stand-in for `10f32.powf (-top_db / 20.0)` at
`top_db = 40`: the true value is `10^(-2) = 1/100`; `f32` computes a
value within `10^-9` of it, and every comparison performed on the inputs
considered below agrees. -/
def pw100 : ℚ → ℚ := fun _ => 1 / 100

/-- Twenty zero samples, ten full-scale samples, twenty zero samples: a pulse with
silence on both sides.  At `sample_rate = 1024`, `frame_ms = hop_ms = 1`,
every frame is a single sample, each frame RMS is 0 or 1 exactly, and all
derived integer sizes agree with the `f32` computation of the source. -/
def demoAudio : List ℚ := List.replicate 20 0 ++ List.replicate 10 1 ++ List.replicate 20 0

/-- An inference stand-in returning a fixed short waveform. -/
def inf23 : List (List ℤ) → List ℚ → ℚ → List ℚ := fun _ _ _ => [2, 3]

/-- An inference stand-in returning the empty waveform. -/
def infNil : List (List ℤ) → List ℚ → ℚ → List ℚ := fun _ _ _ => []

/-- A phonemizer stand-in: the identity on strings. -/
def idPhonemize : String → String := fun s => s

/-- The all-zero 256-wide style vector (the source's own fallback
embedding). -/
def demoEmbedding : List ℚ := List.replicate 256 0

/-- A voice bank stand-in mapping every name to `demoEmbedding`. -/
def demoVoiceMap : String → Option (List ℚ) := fun _ => some demoEmbedding

/-- The default voice name. -/
def voice5m : String := "expr-voice-5-m"

/-- The empty input text. -/
def emptyText : String := ""

/-- A short non-empty input text. -/
def hiText : String := "hi"

/-- Looking up the inserted key with `find?` after an overwriting insert. -/
theorem insertMap_find?_self (m : List (Char × ℤ)) (k : Char) (v : ℤ) :
    (insertMap m k v).find? (fun p => p.1 = k) = some (k, v) := by
  induction m with
  | nil => simp [insertMap, List.find?]
  | cons hd tl ih =>
      obtain ⟨k0, v0⟩ := hd
      by_cases h : k0 = k
      · subst h
        simp [insertMap, List.find?]
      · simp only [insertMap, if_neg h, List.find?]
        rw [decide_eq_false h]
        exact ih

/-- Looking up a different key with `find?` after an overwriting insert. -/
theorem insertMap_find?_ne (m : List (Char × ℤ)) (k c : Char) (v : ℤ)
    (h : c ≠ k) :
    (insertMap m k v).find? (fun p => p.1 = c) = m.find? (fun p => p.1 = c) := by
  have hkc : (decide (k = c)) = false := decide_eq_false (fun hkc => h hkc.symm)
  induction m with
  | nil => simp [insertMap, List.find?, hkc]
  | cons hd tl ih =>
      obtain ⟨k0, v0⟩ := hd
      by_cases h0 : k0 = k
      · subst h0
        simp [insertMap, List.find?, hkc]
      · by_cases hp : k0 = c
        · subst hp
          simp [insertMap, if_neg h0, List.find?]
        · have hp2 : (decide (k0 = c)) = false := decide_eq_false hp
          simp [insertMap, if_neg h0, List.find?, hp2, ih]

/-- Looking up `c` in the map built by the insertion loop over
`enumFrom n l` on top of an arbitrary map `m`: the last occurrence of `c`
in `l` wins, and `m` answers only when `c` does not occur in `l`. -/
theorem buildGo (l : List Char) :
    ∀ (n : ℕ) (m : List (Char × ℤ)) (c : Char),
    (((l.enumFrom n).foldl (fun m p => insertMap m p.2 (Int.ofNat p.1)) m).find?
        (fun p => p.1 = c)).map Prod.snd
    = (match lastIdxFrom l n c with
       | some v => some v
       | none => (m.find? (fun p => p.1 = c)).map Prod.snd) := by
  induction l with
  | nil => intro n m c; simp [lastIdxFrom]
  | cons a rest ih =>
      intro n m c
      simp only [List.enumFrom, List.foldl_cons]
      rw [ih (n + 1) (insertMap m a (Int.ofNat n)) c]
      cases hl : lastIdxFrom rest (n + 1) c with
      | some v => simp [lastIdxFrom, hl]
      | none =>
          by_cases hac : a = c
          · subst hac
            simp only [lastIdxFrom, hl, if_pos rfl]
            rw [insertMap_find?_self]
            simp
          · have hne : c ≠ a := fun hc => hac hc.symm
            simp only [lastIdxFrom, hl, if_neg hac]
            rw [insertMap_find?_ne m a c (Int.ofNat n) hne]

/-- C3 (corrected): for every code point, `SYMBOL_TO_ID` holds the index
of its LAST occurrence in the concatenated pad/punctuation/letters/IPA
sequence — the `HashMap::insert` loop overwrites earlier indices, so a
duplicated code point takes the last index, not the first one the claim
states. -/
theorem c3_last_index_wins (c : Char) : symbolToId c = lastIdxFrom symbols 0 c := by
  have e : symbols.enum = symbols.enumFrom 0 := rfl
  have h := buildGo symbols 0 [] c
  rw [List.find?_nil] at h
  unfold symbolToId symbolMap
  rw [e, h]
  cases hl : lastIdxFrom symbols 0 c <;> simp

/-- C3 counterexample: the straight double quote U+0022 occurs first at
index 11 of the symbol sequence (later at 14 and 15), but its id is 15 —
the claim's "index of the FIRST occurrence" is false on the code. -/
theorem c3_counterexample :
    symbols.findIdx (fun c => c = Char.ofNat 34) = 11 ∧
    symbolToId (Char.ofNat 34) = some 15 := by
  constructor
  · decide
  · decide

/-- C2 counterexample: neither curly double-quote code point has an id —
the source string `";:,.!?¡¿—…\"«»\"\" "` contains the ASCII straight
quote three times and no curly quotes, so the claim that both curly
double-quote code points have an id is false on the code. -/
theorem c2_counterexample :
    symbolToId (Char.ofNat 0x201C) = none ∧ symbolToId (Char.ofNat 0x201D) = none := by
  constructor
  · decide
  · decide

/-- C2 (corrected): the table is the pad `$` at index 0, the fixed
16-character punctuation string (in which the straight double quote
U+0022 occurs three times and ASCII space is last, at position 15 — there
are no curly double quotes), then the 52 letters, then the 109-glyph IPA
inventory, with successive indices from 0; hence `id_of('$') = 0`,
`id_of(' ') = 16 = 1 + 15`, and the table's length is
`1 + 16 + 52 + 109 = 178`.  The curly double-quote code points have no
id. -/
theorem c2_symbol_table :
    symbols.length = 1 + punctuation.length + 52 + lettersIpa.length ∧
    symbols.length = 178 ∧
    symbolToId (Char.ofNat 36) = some 0 ∧
    punctuation.data.findIdx (fun c => c = Char.ofNat 32) = 15 ∧
    symbolToId (Char.ofNat 32) = some 16 ∧
    symbols.count (Char.ofNat 34) = 3 ∧
    symbolToId (Char.ofNat 0x201C) = none ∧
    symbolToId (Char.ofNat 0x201D) = none := by
  refine ⟨by decide, by decide, by decide, by decide, by decide, by decide, by decide, by decide⟩

/-- The cleaner's accumulator loop, generalized over the starting
accumulator: it appends exactly the ids of the chars present in the
table. -/
theorem cleanFoldl (l : List Char) :
    ∀ acc : List ℤ,
    l.foldl (fun tokens ch =>
      match symbolToId ch with
      | some tokenId => tokens.concat tokenId
      | none => tokens) acc = acc ++ l.filterMap symbolToId := by
  induction l with
  | nil => intro acc; simp
  | cons ch rest ih =>
      intro acc
      cases h : symbolToId ch with
      | none =>
          simp only [List.foldl_cons, List.filterMap_cons, h]
          exact ih acc
      | some v =>
          simp only [List.foldl_cons, List.filterMap_cons, h]
          rw [ih (acc.concat v), List.concat_eq_append, List.append_assoc]
          rfl

/-- C7 (confirmed): `clean(s)` is exactly `id_of` filter-mapped over the
Unicode scalars of `s` in input order — order and multiplicity preserved,
unknown characters silently dropped, no normalization or case folding,
and the result depends only on `s` and the fixed table. -/
theorem c7_cleaner (s : String) : clean s = s.data.filterMap symbolToId := by
  have h := cleanFoldl s.data []
  simpa [clean] using h

/-- C4 counterexample: on a one-sample waveform the facade's trim returns
the waveform unchanged, whereas dropping the first 5000 and last 10000
samples would return the empty waveform — the unconditional form of the
claim is false on the code. -/
theorem c4_counterexample :
    fixedTrim [(1 : ℚ)] ≠ (([(1 : ℚ)].drop 5000).take ([(1 : ℚ)].length - 15000)) := by
  decide

/-- C4 (corrected): the facade's fixed trim drops the first 5000 and the
last 10000 samples exactly when the raw waveform is strictly longer than
15000 samples; any raw waveform of length ≤ 15000 is returned
unchanged. -/
theorem c4_fixed_trim (raw : List ℚ) :
    fixedTrim raw
      = if 15000 < raw.length then (raw.drop 5000).take (raw.length - 15000) else raw := by
  by_cases h : 15000 < raw.length
  · have h1 : min 5000 raw.length = 5000 := by omega
    have h2 : min 10000 (raw.length - 5000) = 10000 := by omega
    have h3 : raw.length - 10000 - 5000 = raw.length - 15000 := by omega
    rw [if_pos h]
    simp only [fixedTrim, h1, h2, h3]
    rw [if_pos (by omega : raw.length > 5000 + 10000)]
  · have hc : ¬(raw.length >
        min 5000 raw.length + min 10000 (raw.length - min 5000 raw.length)) := by omega
    rw [if_neg h]
    simp only [fixedTrim]
    rw [if_neg hc]

/-- The executable rational floor agrees with Mathlib's floor. -/
theorem ratFloor_eq (q : ℚ) : ratFloor q = ⌊q⌋ := (Rat.floor_def).symm

/-- The executable rational ceiling agrees with Mathlib's ceiling. -/
theorem ratCeil_eq (q : ℚ) : ratCeil q = ⌈q⌉ := by
  unfold ratCeil
  rw [ratFloor_eq, Int.floor_neg, neg_neg]

/-- Rewriting `truncQ` in terms of Mathlib's floor and ceiling. -/
theorem truncQ_eq (q : ℚ) : truncQ q = if 0 ≤ q then ⌊q⌋ else ⌈q⌉ := by
  unfold truncQ
  rw [ratFloor_eq, ratCeil_eq]

/-- Lower clamp bound for `f32::clamp(x, -1.0, 1.0)`. -/
theorem neg_one_le_clampF (x : ℚ) : -1 ≤ clampF x := by
  unfold clampF; split_ifs <;> linarith

/-- Upper clamp bound for `f32::clamp(x, -1.0, 1.0)`. -/
theorem clampF_le_one (x : ℚ) : clampF x ≤ 1 := by
  unfold clampF; split_ifs <;> linarith

/-- C6 counterexample: at the exactly-representable input `13/64` the
writer emits `6655` (truncation of `6655.796875`), while the nearest
integer — what the claim specifies — is `6656`. -/
theorem c6_counterexample :
    wav16Sample (13 / 64) = 6655 ∧ round (clampF (13 / 64) * 32767) = 6656 := by
  constructor
  · with_unfolding_all decide
  · have h1 : clampF (13 / 64 : ℚ) = 13 / 64 := by
      unfold clampF
      norm_num
    rw [h1, round_eq]
    with_unfolding_all decide

/-- C6 (corrected): the int16 writer maps `x` to the truncation toward
zero of `clamp(x,-1,1)·32767` (the semantics of Rust's `as i16` cast),
not the nearest integer; the result always lies in `[-32767, 32767]` (so
the cast's saturation never engages) and differs from
`clamp(x,-1,1)·32767` by strictly less than one. -/
theorem c6_wav16_trunc (x : ℚ) :
    wav16Sample x = truncQ (clampF x * 32767) ∧
    -32767 ≤ wav16Sample x ∧ wav16Sample x ≤ 32767 ∧
    |(wav16Sample x : ℚ) - clampF x * 32767| < 1 := by
  have hle : clampF x * 32767 ≤ 32767 := by nlinarith [clampF_le_one x]
  have hge : -32767 ≤ clampF x * 32767 := by nlinarith [neg_one_le_clampF x]
  have htb : -32767 ≤ truncQ (clampF x * 32767) ∧ truncQ (clampF x * 32767) ≤ 32767 := by
    rw [truncQ_eq]
    split_ifs with h0
    · refine ⟨?_, ?_⟩
      · have h1 : (0 : ℤ) ≤ ⌊clampF x * 32767⌋ := Int.floor_nonneg.mpr h0
        omega
      · have h1 : ⌊clampF x * 32767⌋ ≤ ⌊(32767 : ℚ)⌋ := Int.floor_le_floor hle
        simpa using h1
    · push_neg at h0
      refine ⟨?_, ?_⟩
      · have h1 : ⌈(-32767 : ℚ)⌉ ≤ ⌈clampF x * 32767⌉ := Int.ceil_le_ceil hge
        simpa using h1
      · have h1 : ⌈clampF x * 32767⌉ ≤ 0 := Int.ceil_le.mpr (by exact_mod_cast h0.le)
        omega
  have heq : wav16Sample x = truncQ (clampF x * 32767) := by
    unfold wav16Sample
    rw [min_eq_right htb.2, max_eq_right (by omega : (-32768 : ℤ) ≤ truncQ (clampF x * 32767))]
  refine ⟨heq, heq ▸ htb.1, heq ▸ htb.2, ?_⟩
  rw [heq, truncQ_eq]
  split_ifs with h0
  · rw [abs_lt]
    constructor
    · have := Int.sub_one_lt_floor (clampF x * 32767)
      linarith
    · have := Int.floor_le (clampF x * 32767)
      linarith
  · rw [abs_lt]
    constructor
    · have := Int.le_ceil (clampF x * 32767)
      linarith
    · have := Int.ceil_lt_add_one (clampF x * 32767)
      linarith

/-- C1 counterexample: with a valid voice, `generate` succeeds and
returns the (trimmed) inference output both for empty text and for a
negative speed — it does not fail with `InvalidArgument` in either case,
and the inference call IS reached. -/
theorem c1_counterexample :
    generate inf23 idPhonemize demoVoiceMap emptyText voice5m 1 = Except.ok [2, 3] ∧
    generate inf23 idPhonemize demoVoiceMap hiText voice5m (-1) = Except.ok [2, 3] := by
  constructor
  · rfl
  · rfl

/-- C1 (corrected): `KittenTTS::generate` validates only the voice name;
it performs no emptiness check on `text` and no positivity check on
`speed` — for every voice in the canonical list with an embedding, every
text (including the empty string) and every speed (including non-positive
ones) the call reaches inference and returns its trimmed output. -/
theorem c1_no_validation (inf : List (List ℤ) → List ℚ → ℚ → List ℚ)
    (phonemize : String → String) (voiceMap : String → Option (List ℚ))
    (text voice : String) (speed : ℚ) (emb : List ℚ)
    (hvoice : availableVoices.contains voice = true)
    (hemb : voiceMap voice = some emb) :
    generate inf phonemize voiceMap text voice speed
      = Except.ok (fixedTrim (inf [generateTokens (phonemize text)] emb speed)) := by
  have hmem : voice ∈ availableVoices := by simpa using hvoice
  simp [generate, hmem, hemb]

/-- Witness for C1: the hypotheses hold and the conclusion evaluates at
the default voice, empty text and speed `-1`. -/
theorem c1_witness :
    availableVoices.contains voice5m = true ∧
    demoVoiceMap voice5m = some demoEmbedding ∧
    generate inf23 idPhonemize demoVoiceMap emptyText voice5m (-1)
      = Except.ok (fixedTrim (inf23 [generateTokens (idPhonemize emptyText)] demoEmbedding (-1))) :=
  ⟨rfl, rfl,
    c1_no_validation inf23 idPhonemize demoVoiceMap emptyText voice5m (-1) demoEmbedding rfl rfl⟩

/-- C9 (confirmed): every call that reaches inference passes exactly the
cleaner's output with the pad id 0 prepended and appended, a sequence of
length at least 2. -/
theorem c9_pad_tokens (inf : List (List ℤ) → List ℚ → ℚ → List ℚ)
    (phonemize : String → String) (voiceMap : String → Option (List ℚ))
    (text voice : String) (speed : ℚ) (emb : List ℚ)
    (hvoice : availableVoices.contains voice = true)
    (hemb : voiceMap voice = some emb) :
    generate inf phonemize voiceMap text voice speed
      = Except.ok (fixedTrim (inf [(0 : ℤ) :: (clean (phonemize text) ++ [0])] emb speed)) ∧
    generateTokens (phonemize text) = (0 : ℤ) :: (clean (phonemize text) ++ [0]) ∧
    2 ≤ (generateTokens (phonemize text)).length := by
  have htok : generateTokens (phonemize text) = (0 : ℤ) :: (clean (phonemize text) ++ [0]) := by
    unfold generateTokens
    rw [List.insertIdx_zero, List.concat_eq_append]
    simp
  have hmem : voice ∈ availableVoices := by simpa using hvoice
  refine ⟨?_, htok, ?_⟩
  · rw [← htok]
    simp [generate, hmem, hemb]
  · rw [htok]
    simp

/-- Witness for C9: the hypotheses hold and the conclusion evaluates at a
concrete call. -/
theorem c9_witness :
    availableVoices.contains voice5m = true ∧
    generate infNil idPhonemize demoVoiceMap hiText voice5m 1
      = Except.ok (fixedTrim (infNil [(0 : ℤ) :: (clean (idPhonemize hiText) ++ [0])] demoEmbedding 1)) ∧
    2 ≤ (generateTokens (idPhonemize hiText)).length :=
  ⟨rfl,
    (c9_pad_tokens infNil idPhonemize demoVoiceMap hiText voice5m 1 demoEmbedding rfl rfl).1,
    (c9_pad_tokens infNil idPhonemize demoVoiceMap hiText voice5m 1 demoEmbedding rfl rfl).2.2⟩

/-- Scaling by a factor in `[0, 1]` cannot increase the magnitude of a
sample. -/
theorem mul_factor_abs_le (x g : ℚ) (h0 : 0 ≤ g) (h1 : g ≤ 1) : |x * g| ≤ |x| := by
  rw [abs_mul]
  have : |g| = g := abs_of_nonneg h0
  nlinarith [abs_nonneg x]

/-- The fade pass preserves the buffer length. -/
theorem applyFadeInOut_length (audio : List ℚ) (sampleRate : ℕ)
    (fadeInMs fadeOutMs : ℚ) :
    (applyFadeInOut audio sampleRate fadeInMs fadeOutMs).length = audio.length := by
  simp only [applyFadeInOut]
  split_ifs
  · rfl
  · simp [List.length_mapIdx]

/-- Mapping with a pointwise-contracting indexed function contracts every
`getD` entry. -/
theorem mapIdx_getD_abs_le (f : ℕ → ℚ → ℚ) (hf : ∀ i x, |f i x| ≤ |x|)
    (l : List ℚ) (i : ℕ) : |(l.mapIdx f).getD i 0| ≤ |l.getD i 0| := by
  rw [List.getD_eq_getElem?_getD, List.getD_eq_getElem?_getD, List.getElem?_mapIdx]
  cases hx : l[i]? with
  | none => simp
  | some x => simpa using hf i x

/-- The fade-in pass multiplies each touched sample by `i / fade_in ∈
[0, 1]` and leaves the rest unchanged, hence contracts pointwise. -/
theorem fadeIn_contracts (fadeInSamples n i : ℕ) (x : ℚ) :
    |if i < min fadeInSamples n then x * ((i : ℚ) / (fadeInSamples : ℚ)) else x| ≤ |x| := by
  split_ifs with h
  · have hfi : 0 < fadeInSamples := by omega
    refine mul_factor_abs_le x _ (by positivity) ?_
    rw [div_le_one (by exact_mod_cast hfi)]
    exact_mod_cast (by omega : i ≤ fadeInSamples)
  · exact le_refl _

/-- The fade-out pass multiplies each touched sample by
`1 - (n-1-i)/fade_out ∈ [0, 1]` and leaves the rest unchanged, hence
contracts pointwise. -/
theorem fadeOut_contracts (fadeOutSamples n j : ℕ) (x : ℚ) :
    |if n - min fadeOutSamples n ≤ j
      then x * (1 - ((n - 1 - j : ℕ) : ℚ) / (fadeOutSamples : ℚ)) else x| ≤ |x| := by
  split_ifs with h
  · have hmle : min fadeOutSamples n ≤ fadeOutSamples := Nat.min_le_left _ _
    have hmln : min fadeOutSamples n ≤ n := Nat.min_le_right _ _
    have hm : (n - 1 - j : ℕ) ≤ fadeOutSamples := by omega
    have hub : ((n - 1 - j : ℕ) : ℚ) / (fadeOutSamples : ℚ) ≤ 1 := by
      rcases Nat.eq_zero_or_pos fadeOutSamples with hz | hpos
      · simp [hz]
      · rw [div_le_one (by exact_mod_cast hpos)]
        exact_mod_cast hm
    refine mul_factor_abs_le x _ (by linarith) ?_
    have : (0 : ℚ) ≤ ((n - 1 - j : ℕ) : ℚ) / (fadeOutSamples : ℚ) := by positivity
    linarith
  · exact le_refl _

/-- C10 helper: fading never increases the magnitude of any sample
(indexwise, with out-of-range reads defaulting to 0 on both sides). -/
theorem applyFadeInOut_getD (audio : List ℚ) (sampleRate : ℕ)
    (fadeInMs fadeOutMs : ℚ) (i : ℕ) :
    |(applyFadeInOut audio sampleRate fadeInMs fadeOutMs).getD i 0| ≤ |audio.getD i 0| := by
  simp only [applyFadeInOut]
  split_ifs
  · exact le_refl _
  · refine le_trans (mapIdx_getD_abs_le _ ?_ _ i) (mapIdx_getD_abs_le _ ?_ _ i)
    · intro j x
      exact fadeOut_contracts _ _ j x
    · intro j x
      exact fadeIn_contracts _ _ j x

/-- Every sample of a faded buffer is bounded in magnitude by some sample
of the input buffer. -/
theorem applyFadeInOut_mem (audio : List ℚ) (sampleRate : ℕ)
    (fadeInMs fadeOutMs : ℚ) (b : ℚ)
    (hb : b ∈ applyFadeInOut audio sampleRate fadeInMs fadeOutMs) :
    ∃ a ∈ audio, |b| ≤ |a| := by
  obtain ⟨⟨i, hi⟩, hget⟩ := List.mem_iff_get.mp hb
  have hlen := applyFadeInOut_length audio sampleRate fadeInMs fadeOutMs
  have hia : i < audio.length := by omega
  refine ⟨audio.get ⟨i, hia⟩, List.get_mem _ _ _, ?_⟩
  have h1 : (applyFadeInOut audio sampleRate fadeInMs fadeOutMs).getD i 0 = b := by
    rw [List.getD_eq_get _ 0 hi, hget]
  have h2 : audio.getD i 0 = audio.get ⟨i, hia⟩ := List.getD_eq_get audio 0 hia
  have h3 := applyFadeInOut_getD audio sampleRate fadeInMs fadeOutMs i
  rw [h1, h2] at h3
  exact h3

/-- The adaptive trimmer either returns its input unchanged or returns a faded
slice of it. -/
theorem trimSilence_cases (sq pw : ℚ → ℚ) (audio : List ℚ) (sampleRate : ℕ)
    (topDb frameMs hopMs minSilenceMs endPaddingMs : ℚ) :
    trimSilence sq pw audio sampleRate topDb frameMs hopMs minSilenceMs endPaddingMs = audio ∨
    ∃ s e : ℕ, trimSilence sq pw audio sampleRate topDb frameMs hopMs minSilenceMs endPaddingMs
      = applyFadeInOut ((audio.drop s).take (e - s)) sampleRate 5 10 := by
  simp only [trimSilence]
  split_ifs with h1 h2 h3 h4
  · exact Or.inl h1.symm
  · exact Or.inl rfl
  · exact Or.inl rfl
  · exact Or.inl rfl
  · exact Or.inr ⟨_, _, rfl⟩

/-- Summing squares of zeros leaves the accumulator unchanged. -/
theorem foldlSq_zero (l : List ℚ) :
    ∀ acc : ℚ, (∀ y ∈ l, y = 0) → l.foldl (fun s x => s + x * x) acc = acc := by
  induction l with
  | nil => intro acc _; rfl
  | cons y rest ih =>
      intro acc h
      have hy : y = 0 := h y (List.mem_cons_self _ _)
      rw [List.foldl_cons, hy, show acc + (0 : ℚ) * 0 = acc by ring]
      exact ih acc (fun z hz => h z (List.mem_cons_of_mem _ hz))

/-- The mean square of an all-zero frame is zero. -/
theorem frameMean_zero (frame : List ℚ) (h : ∀ y ∈ frame, y = 0) :
    frameMean frame = 0 := by
  unfold frameMean
  split_ifs with hf
  · rfl
  · rw [foldlSq_zero frame 0 h, zero_div]

/-- On an all-zero signal, every envelope entry produced by the framing
loop is `sq 0`. -/
theorem rmsGo_zero (sq : ℚ → ℚ) (audio : List ℚ)
    (hall : ∀ a ∈ audio, a = 0) (hsq : sq 0 = 0) (frameLen hopLen : ℕ) :
    ∀ (fuel start : ℕ) (x : ℚ), x ∈ rmsGo sq audio frameLen hopLen fuel start → x = 0 := by
  intro fuel
  induction fuel with
  | zero => intro start x hx; simp [rmsGo] at hx
  | succ n ih =>
      intro start x hx
      have hhead : x = sq (frameMean ((audio.drop start).take frameLen)) → x = 0 := by
        intro hh
        have hframe : ∀ y ∈ (audio.drop start).take frameLen, y = 0 :=
          fun y hy => hall y (List.drop_subset _ _ (List.take_subset _ _ hy))
        rw [hh, frameMean_zero _ hframe, hsq]
      simp only [rmsGo] at hx
      split_ifs at hx with h1 h2
      · rcases List.mem_cons.mp hx with hh | ht
        · exact hhead hh
        · simp at ht
      · rcases List.mem_cons.mp hx with hh | ht
        · exact hhead hh
        · exact ih (start + hopLen) x ht
      · simp at hx

/-- On an all-zero signal, every RMS envelope entry is zero. -/
theorem rmsFrames_zero (sq : ℚ → ℚ) (audio : List ℚ)
    (hall : ∀ a ∈ audio, a = 0) (hsq : sq 0 = 0) (frameLen hopLen : ℕ) :
    ∀ x ∈ rmsFrames sq audio frameLen hopLen, x = 0 := by
  intro x hx
  unfold rmsFrames at hx
  split_ifs at hx with h
  · simp at hx
  · exact rmsGo_zero sq audio hall hsq frameLen hopLen audio.length 0 x hx

/-- The running maximum (seeded with 0) of an all-zero envelope is 0. -/
theorem envMax_zero (env : List ℚ) : (∀ x ∈ env, x = 0) → envMax env = 0 := by
  induction env with
  | nil => intro _; rfl
  | cons b rest ih =>
      intro h
      have hb : b = 0 := h b (List.mem_cons_self _ _)
      simp only [envMax, List.foldl_cons] at ih ⊢
      rw [hb, if_neg (lt_irrefl (0 : ℚ))]
      exact ih (fun x hx => h x (List.mem_cons_of_mem _ hx))

/-- C8 (confirmed): the adaptive trimmer never lengthens a signal, and an
all-zero signal (whose maximum frame RMS is `sq 0 = 0`, forcing the
`ref ≤ 0` early return) is returned unchanged. -/
theorem c8_trim_monotone (sq pw : ℚ → ℚ) (audio : List ℚ) (sampleRate : ℕ)
    (topDb frameMs hopMs minSilenceMs endPaddingMs : ℚ) :
    (trimSilence sq pw audio sampleRate topDb frameMs hopMs minSilenceMs endPaddingMs).length
        ≤ audio.length ∧
    ((∀ a ∈ audio, a = 0) → sq 0 = 0 →
      trimSilence sq pw audio sampleRate topDb frameMs hopMs minSilenceMs endPaddingMs
        = audio) := by
  constructor
  · rcases trimSilence_cases sq pw audio sampleRate topDb frameMs hopMs
        minSilenceMs endPaddingMs with h | ⟨s, e, h⟩
    · rw [h]
    · rw [h, applyFadeInOut_length]
      simp only [List.length_take, List.length_drop]
      omega
  · intro hall hsq
    simp only [trimSilence]
    split_ifs with h1 h2 h3 h4
    · exact h1.symm
    · rfl
    · rfl
    · rfl
    · exact absurd (le_of_eq (envMax_zero _
        (fun x hx => rmsFrames_zero sq audio hall hsq _ _ x hx))) h3

/-- Witness for C8: at an all-zero 5-sample signal the hypotheses hold,
the trimmer returns the signal unchanged, and the length bound holds. -/
theorem c8_witness :
    (trimSilence ratSqrt pw100 (List.replicate 5 (0 : ℚ)) 1024 40 1 1 0 0).length
        ≤ (List.replicate 5 (0 : ℚ)).length ∧
    trimSilence ratSqrt pw100 (List.replicate 5 (0 : ℚ)) 1024 40 1 1 0 0
      = List.replicate 5 (0 : ℚ) :=
  ⟨(c8_trim_monotone ratSqrt pw100 (List.replicate 5 (0 : ℚ)) 1024 40 1 1 0 0).1,
   (c8_trim_monotone ratSqrt pw100 (List.replicate 5 (0 : ℚ)) 1024 40 1 1 0 0).2
     (fun a ha => List.eq_of_mem_replicate ha)
     (by with_unfolding_all rfl)⟩

/-- C10 (confirmed): `apply_fade_in_out` preserves the buffer length and
only rescales samples by factors in `[0, 1]`, so no sample's magnitude
grows; consequently `trim_silence` keeps a signal whose samples lie in
`[-1, 1]` inside `[-1, 1]`. -/
theorem c10_fade_contracts (audio : List ℚ) (sampleRate : ℕ)
    (fadeInMs fadeOutMs : ℚ) :
    (applyFadeInOut audio sampleRate fadeInMs fadeOutMs).length = audio.length ∧
    (∀ i : ℕ,
      |(applyFadeInOut audio sampleRate fadeInMs fadeOutMs).getD i 0| ≤ |audio.getD i 0|) ∧
    (∀ (sq pw : ℚ → ℚ) (topDb frameMs hopMs minSilenceMs endPaddingMs : ℚ),
      (∀ a ∈ audio, |a| ≤ 1) →
      ∀ b ∈ trimSilence sq pw audio sampleRate topDb frameMs hopMs minSilenceMs endPaddingMs,
        |b| ≤ 1) := by
  refine ⟨applyFadeInOut_length _ _ _ _, fun i => applyFadeInOut_getD _ _ _ _ i, ?_⟩
  intro sq pw topDb frameMs hopMs minSilenceMs endPaddingMs hbound b hb
  rcases trimSilence_cases sq pw audio sampleRate topDb frameMs hopMs
      minSilenceMs endPaddingMs with h | ⟨s, e, h⟩
  · rw [h] at hb
    exact hbound b hb
  · rw [h] at hb
    obtain ⟨a, ha, hba⟩ := applyFadeInOut_mem _ _ _ _ b hb
    exact le_trans hba (hbound a (List.drop_subset _ _ (List.take_subset _ _ ha)))

/-- Witness for C10: the conclusions evaluate at a concrete two-sample
buffer within `[-1, 1]`. -/
theorem c10_witness :
    (applyFadeInOut [(1 : ℚ)/2, 1] 1000 1 1).length = ([(1 : ℚ)/2, 1]).length ∧
    |(applyFadeInOut [(1 : ℚ)/2, 1] 1000 1 1).getD 0 0| ≤ |([(1 : ℚ)/2, 1]).getD 0 0| ∧
    (∀ b ∈ trimSilence ratSqrt pw100 [(1 : ℚ)/2, 1] 1000 40 1 1 0 0, |b| ≤ 1) :=
  ⟨(c10_fade_contracts [(1 : ℚ)/2, 1] 1000 1 1).1,
   (c10_fade_contracts [(1 : ℚ)/2, 1] 1000 1 1).2.1 0,
   (c10_fade_contracts [(1 : ℚ)/2, 1] 1000 1 1).2.2 ratSqrt pw100 40 1 1 0 0 (by
      intro a ha
      rcases List.mem_cons.mp ha with h | h
      · rw [h, abs_of_nonneg (by norm_num : (0 : ℚ) ≤ 1 / 2)]
        norm_num
      · rcases List.mem_cons.mp h with h2 | h2
        · rw [h2, abs_one]
        · simp at h2)⟩

/-- C5: evaluation of the code at the failing input.  On a pulse with
silence on both sides (`demoAudio`, at `sample_rate = 1024`,
`top_db = 40`, `frame_ms = hop_ms = 1`, `min_silence_ms =
end_padding_ms = 0`), `trim_silence` takes the slicing branch and applies
the fades (5 ms fade-in = 5 samples, 10 ms fade-out = 10 samples, both
≥ 1): the first sample of the output is 0 as claimed, but the LAST sample
is 1, not 0 — `apply_fade_in_out` multiplies the final sample by
`1 - 0/fade_out = 1`, so the fade-out ramp is inverted relative to its
stated purpose ("apply gentle fades to avoid clicks") and the spec. -/
theorem c5_fade_out_tail :
    trimSilence ratSqrt pw100 demoAudio 1024 40 1 1 0 0
      = [0, 0, 0, 0, 0, 1/10, 1/5, 3/10, 2/5, 1/2, 3/5, 7/10, 4/5, 9/10, 1] ∧
    (trimSilence ratSqrt pw100 demoAudio 1024 40 1 1 0 0).getLast? = some 1 ∧
    (trimSilence ratSqrt pw100 demoAudio 1024 40 1 1 0 0).head? = some 0 ∧
    ratToUsize (max (5 / 1000 * (1024 : ℚ)) 0) = 5 ∧
    ratToUsize (max (10 / 1000 * (1024 : ℚ)) 0) = 10 := by
  refine ⟨?_, ?_, ?_, ?_, ?_⟩ <;> with_unfolding_all decide
